import Mathlib

/-!
Shallow embedding of `random.hpp` (minion RNG / SparkyRNG) and proofs about it.

Machine integers are modelled as `Nat` with explicit reduction modulo `2^w`
where the C++ code relies on wrap-around.  All definitions are translated
directly from the source file; fuel is added where a C++ loop is not
structurally terminating, and stream-consuming functions additionally report
the number of values consumed from the callback.
-/

namespace Minion

/-- Width constant: `2^32`, the number of values of `uint32_t`. -/
def U32 : Nat := 2 ^ 32

/-- Width constant: `2^64`, the number of values of `uint64_t`. -/
def U64 : Nat := 2 ^ 64

/-- Width constant: `2^128`, the number of values of `__uint128_t`. -/
def M128 : Nat := 2 ^ 128

/-! ## Lehmer64Fast engine -/

/-- Multiplier used by `Lehmer64Fast::Advance` (`MCG_MULT` in the source). -/
def MCG_MULT : Nat := 0xda942042e4dd58b5

/-- Engine data: the single 128-bit state word `state_` of `Lehmer64Fast`. -/
structure Lehmer64Fast where
  state_ : Nat
deriving Repr, DecidableEq

namespace Lehmer64Fast

/-- Embeds `SetState`: `state_ = state | 1` on a 128-bit value. -/
def SetState (state : Nat) : Lehmer64Fast :=
  ⟨(state % M128) ||| 1⟩

/-- Embeds `Seed`: the four 32-bit words of the seed are memcpy-ed into the
128-bit state (little-endian, as on the targets the header is built for) and
passed to `SetState`. -/
def Seed (seed : Fin 4 → Nat) : Lehmer64Fast :=
  SetState ((seed 0 % U32) + (seed 1 % U32) * 2 ^ 32 +
            (seed 2 % U32) * 2 ^ 64 + (seed 3 % U32) * 2 ^ 96)

/-- Embeds the default constructor `Lehmer64Fast(0x9f57c403d06c42fcULL)`. -/
def init : Lehmer64Fast := SetState 0x9f57c403d06c42fc

/-- Embeds `Advance`: `state_ *= MCG_MULT` on a 128-bit value. -/
def Advance (g : Lehmer64Fast) : Lehmer64Fast :=
  ⟨(g.state_ * MCG_MULT) % M128⟩

/-- Embeds `Discard(count)`: `count` iterated advances. -/
def Discard (g : Lehmer64Fast) : Nat → Lehmer64Fast
  | 0 => g
  | k + 1 => Discard (Advance g) k

/-- Embeds `operator()`: advance, then return the top 64 bits of the new
128-bit state; the pair is (returned value, engine after the call). -/
def next (g : Lehmer64Fast) : Nat × Lehmer64Fast :=
  let g2 := Advance g
  (g2.state_ / 2 ^ 64, g2)

/-- Outputs of `k` consecutive draws together with the final engine. -/
def draws (g : Lehmer64Fast) : Nat → List Nat × Lehmer64Fast
  | 0 => ([], g)
  | k + 1 =>
    let p := next g
    let rest := draws p.2 k
    (p.1 :: rest.1, rest.2)

/-- States reachable through the public interface: every construction goes
through `SetState` (directly, via the constructors, or via `Seed`), and the
only state transitions are `Advance`, `operator()` and `Discard`. -/
inductive Reachable : Lehmer64Fast → Prop where
  | ofSetState (s : Nat) : Reachable (SetState s)
  | ofSeed (sd : Fin 4 → Nat) : Reachable (Seed sd)
  | stepAdvance {g : Lehmer64Fast} : Reachable g → Reachable (Advance g)
  | stepNext {g : Lehmer64Fast} : Reachable g → Reachable (next g).2
  | stepDiscard {g : Lehmer64Fast} (n : Nat) : Reachable g → Reachable (Discard g n)

end Lehmer64Fast

/-! ### Engine lemmas -/

lemma or_one_mod_two (x : Nat) : (x ||| 1) % 2 = 1 := by
  simp [Nat.testBit_zero]

lemma setState_odd (s : Nat) : (Lehmer64Fast.SetState s).state_ % 2 = 1 :=
  or_one_mod_two (s % M128)

lemma advance_odd {g : Lehmer64Fast} (h : g.state_ % 2 = 1) :
    (g.Advance).state_ % 2 = 1 := by
  show (g.state_ * MCG_MULT) % M128 % 2 = 1
  have h2 : (2 : Nat) ∣ M128 := by
    show (2 : Nat) ∣ 2 ^ 128
    exact dvd_pow_self 2 (by omega)
  rw [Nat.mod_mod_of_dvd _ h2, Nat.mul_mod, h]
  decide

lemma discard_odd {g : Lehmer64Fast} (n : Nat) (h : g.state_ % 2 = 1) :
    (g.Discard n).state_ % 2 = 1 := by
  induction n generalizing g with
  | zero => exact h
  | succ k ih => exact ih (advance_odd h)

/-- Claim C7: one draw advances the state to `state * MCG_MULT mod 2^128`
and returns exactly the top 64 bits of that new state (a 64-bit value); the
pair fully describes the call, so nothing else is returned or mutated. -/
theorem lehmer_draw_spec (g : Lehmer64Fast) :
    g.next = (((g.state_ * MCG_MULT) % M128) / 2 ^ 64,
              ⟨(g.state_ * MCG_MULT) % M128⟩) ∧
      (g.next).1 < 2 ^ 64 := by
  refine ⟨rfl, ?_⟩
  show ((g.state_ * MCG_MULT) % M128) / 2 ^ 64 < 2 ^ 64
  have h : (g.state_ * MCG_MULT) % M128 < M128 := Nat.mod_lt _ (by decide)
  rw [Nat.div_lt_iff_lt_mul (by norm_num : (0:Nat) < 2 ^ 64)]
  calc (g.state_ * MCG_MULT) % M128 < M128 := h
    _ = 2 ^ 64 * 2 ^ 64 := by norm_num [M128]

/-- Claim C8: every reachable engine state is odd. -/
theorem lehmer_state_odd {g : Lehmer64Fast} (h : g.Reachable) :
    g.state_ % 2 = 1 := by
  induction h with
  | ofSetState s => exact setState_odd s
  | ofSeed sd => exact setState_odd _
  | stepAdvance _ ih => exact advance_odd ih
  | stepNext _ ih => exact advance_odd ih
  | stepDiscard n _ ih => exact discard_odd n ih

/-- Witness for C8 at the concrete state 4. -/
theorem lehmer_state_odd_witness :
    (Lehmer64Fast.SetState 4).Reachable ∧
      (Lehmer64Fast.SetState 4).state_ % 2 = 1 :=
  ⟨Lehmer64Fast.Reachable.ofSetState 4,
   lehmer_state_odd (Lehmer64Fast.Reachable.ofSetState 4)⟩

/-- Claim C9: engines seeded with identical raw seed material produce
identical outputs and final states for any number of draws. -/
theorem lehmer_seed_deterministic (s1 s2 : Fin 4 → Nat) (k : Nat)
    (h : ∀ i, s1 i = s2 i) :
    (Lehmer64Fast.Seed s1).draws k = (Lehmer64Fast.Seed s2).draws k := by
  have hs : s1 = s2 := funext h
  rw [hs]

/-- Witness for C9 with a concrete seed and three draws. -/
theorem lehmer_seed_deterministic_witness :
    (Lehmer64Fast.Seed ![1, 2, 3, 4]).draws 3 =
      (Lehmer64Fast.Seed ![1, 2, 3, 4]).draws 3 :=
  lehmer_seed_deterministic ![1, 2, 3, 4] ![1, 2, 3, 4] 3 (fun _ => rfl)

/-! ## Bounded-range draw (`detail::random_u64_range`) -/

/-- Embeds the threshold computation of `random_u64_range`:
`uint64_t t = -range; if(t >= range) { t -= range; if(t >= range) t %= range; }`.
All values are 64-bit, so `-range` is `(2^64 - range) % 2^64`. -/
def computeT (range : Nat) : Nat :=
  let t := (U64 - range % U64) % U64
  if range ≤ t then
    let t2 := t - range
    if range ≤ t2 then t2 % range else t2
  else t

/-- Embeds the `while(l < t)` redraw loop of `random_u64_range`.  The C++
loop has no structural bound, so it takes fuel and returns `none` when the
fuel runs out; `i` is the index of the next value to consume from the
callback stream `get`, and the result pairs the returned value with the
total number of callback values consumed. -/
def u64RangeLoop (range t : Nat) (get : Nat → Nat) : Nat → Nat → Option (Nat × Nat)
  | _, 0 => none
  | i, fuel + 1 =>
    let x := get i % U64
    let m := x * range
    let l := m % U64
    if l < t then u64RangeLoop range t get (i + 1) fuel
    else some (m / U64, i + 1)

/-- Embeds `detail::random_u64_range(range, get)`.  The callback is the
stream `get` of 64-bit draws; the result is `(value, draws consumed)`. -/
def random_u64_range (range : Nat) (get : Nat → Nat) (fuel : Nat) :
    Option (Nat × Nat) :=
  let x := get 0 % U64
  let m := x * range
  let l := m % U64
  if l < range then
    let t := computeT range
    if l < t then u64RangeLoop range t get 1 fuel
    else some (m / U64, 1)
  else some (m / U64, 1)

/-! ### Bounded-range lemmas -/

lemma mulhi_lt_range {x range : Nat} (hx : x < U64) (hr : 0 < range) :
    x * range / U64 < range := by
  have hU : 0 < U64 := by decide
  rw [Nat.div_lt_iff_lt_mul hU, Nat.mul_comm range U64]
  exact mul_lt_mul_of_pos_right hx hr

lemma u64RangeLoop_sound {range t : Nat} {get : Nat → Nat} (hr : 0 < range) :
    ∀ (fuel i v c : Nat), u64RangeLoop range t get i fuel = some (v, c) →
      v < range ∧ 1 ≤ c ∧ v = (get (c - 1) % U64) * range / U64 := by
  intro fuel
  induction fuel with
  | zero => intro i v c h; simp [u64RangeLoop] at h
  | succ k ih =>
    intro i v c h
    simp only [u64RangeLoop] at h
    by_cases hl : (get i % U64) * range % U64 < t
    · rw [if_pos hl] at h
      exact ih (i + 1) v c h
    · rw [if_neg hl] at h
      simp only [Option.some.injEq, Prod.mk.injEq] at h
      obtain ⟨hv, hc⟩ := h
      refine ⟨?_, by omega, ?_⟩
      · rw [← hv]
        exact mulhi_lt_range (Nat.mod_lt _ (by decide)) hr
      · rw [← hc]
        simpa using hv.symm

/-- Claim C2: for `range > 0`, a successful bounded draw is strictly below
`range`, and it is exactly the high 64 bits of `x * range` for the finally
accepted draw `x` (the last callback value consumed). -/
theorem random_u64_range_lt (range : Nat) (get : Nat → Nat) (fuel v c : Nat)
    (hr : 0 < range) (h : random_u64_range range get fuel = some (v, c)) :
    v < range ∧ 1 ≤ c ∧ v = (get (c - 1) % U64) * range / U64 := by
  simp only [random_u64_range] at h
  by_cases h1 : (get 0 % U64) * range % U64 < range
  · rw [if_pos h1] at h
    by_cases h2 : (get 0 % U64) * range % U64 < computeT range
    · rw [if_pos h2] at h
      exact u64RangeLoop_sound hr fuel 1 v c h
    · rw [if_neg h2] at h
      simp only [Option.some.injEq, Prod.mk.injEq] at h
      obtain ⟨hv, hc⟩ := h
      subst hc
      refine ⟨?_, by omega, by simpa using hv.symm⟩
      rw [← hv]
      exact mulhi_lt_range (Nat.mod_lt _ (by decide)) hr
  · rw [if_neg h1] at h
    simp only [Option.some.injEq, Prod.mk.injEq] at h
    obtain ⟨hv, hc⟩ := h
    subst hc
    refine ⟨?_, by omega, by simpa using hv.symm⟩
    rw [← hv]
    exact mulhi_lt_range (Nat.mod_lt _ (by decide)) hr

/-- Witness for C2: range 3, constant stream 5, zero fuel. -/
theorem random_u64_range_lt_witness :
    0 < 3 ∧ random_u64_range 3 (fun _ => 5) 0 = some (0, 1) ∧
      (0 < 3 ∧ 1 ≤ 1 ∧ 0 = ((fun (_ : Nat) => 5) 0 % U64) * 3 / U64) :=
  ⟨by decide, by decide,
   random_u64_range_lt 3 (fun _ => 5) 0 0 1 (by decide) (by decide)⟩

/-- Claim C3: the division-avoiding threshold computation yields exactly
`2^64 mod range` for every 64-bit `range ≥ 1`. -/
theorem computeT_eq (range : Nat) (h1 : 1 ≤ range) (h2 : range < U64) :
    computeT range = U64 % range := by
  have hU64 : U64 = 2 ^ 64 := rfl
  simp only [computeT]
  rw [Nat.mod_eq_of_lt h2]
  have hU : U64 - range < U64 := by
    have : 0 < U64 := by decide
    omega
  rw [Nat.mod_eq_of_lt hU]
  by_cases hA : range ≤ U64 - range
  · rw [if_pos hA]
    by_cases hB : range ≤ U64 - range - range
    · rw [if_pos hB]
      have h2r : range * 2 ≤ U64 := by omega
      have heq : U64 - range - range = U64 - range * 2 := by omega
      rw [heq, Nat.sub_mul_mod h2r]
    · rw [if_neg hB]
      have h2r : range * 2 ≤ U64 := by omega
      have hmod : U64 % range = (U64 - range * 2) % range :=
        (Nat.sub_mul_mod h2r).symm
      rw [hmod, Nat.mod_eq_of_lt (by omega)]
      omega
  · rw [if_neg hA]
    have hr1 : range * 1 ≤ U64 := by omega
    have hmod : U64 % range = (U64 - range * 1) % range :=
      (Nat.sub_mul_mod hr1).symm
    rw [hmod, Nat.mod_eq_of_lt (by omega)]
    omega

/-- Witness for C3 at range 3. -/
theorem computeT_eq_witness : 1 ≤ 3 ∧ computeT 3 = U64 % 3 :=
  ⟨by decide, computeT_eq 3 (by decide) (by decide)⟩

/-- Claim C10: the bounded draw is total at `range = 0`: it never reaches the
`t %= range` statement, consumes exactly one callback value, and returns 0,
for every callback stream and every fuel (even fuel 0: the redraw loop is
not entered). -/
theorem random_u64_range_zero (get : Nat → Nat) (fuel : Nat) :
    random_u64_range 0 get fuel = some (0, 1) := by
  simp [random_u64_range]

/-- Claim C4 evaluation: at the precondition violation `range = 0` the code
returns normally (value 0 after one draw) instead of failing fast. -/
theorem random_u64_range_zero_returns :
    random_u64_range 0 (fun _ => 12345) 5 = some (0, 1) := by
  decide

/-! ## Multilinear hash (`detail::hash_impl_t`) -/

/-- Embeds the lambda `next_num`: `w += INC; return w;` on a 64-bit word. -/
def weylNext (inc w : Nat) : Nat := (w + inc) % U64

/-- Embeds the body of the outer loop of `hash_impl_t::operator()` for one
output slot: `sum = next_num()`, then `sum += next_num()*u` for every input
`u` (a `uint32_t`), then `sum += next_num() * 1`.  Returns the slot sum and
the updated Weyl accumulator. -/
def hashSlot (inc : Nat) (us : List Nat) (w : Nat) : Nat × Nat :=
  let w1 := weylNext inc w
  let q := us.foldl (fun (q : Nat × Nat) u =>
    let w2 := weylNext inc q.2
    ((q.1 + w2 * (u % U32)) % U64, w2)) (w1, w1)
  let w3 := weylNext inc q.2
  ((q.1 + w3 * 1) % U64, w3)

/-- Embeds the outer loop of `hash_impl_t::operator()`: one slot per output
position, each emitting `sum >> 32`, with the Weyl accumulator carried from
slot to slot (never reset). -/
def hashRun (inc : Nat) (us : List Nat) (w : Nat) : Nat → List Nat × Nat
  | 0 => ([], w)
  | l + 1 =>
    let sw := hashSlot inc us w
    let rest := hashRun inc us sw.2 l
    ((sw.1 / U32) :: rest.1, rest.2)

/-- Embeds `hash_impl_t<INC, INIT>::operator()` producing `l` output slots
from input `us`: the accumulator starts at `INIT` and the outputs are the
emitted 32-bit values in order. -/
def hash_impl (inc w0 : Nat) (us : List Nat) (l : Nat) : List Nat :=
  (hashRun inc us (w0 % U64) l).1

/-- Value of the Weyl accumulator at its `j`-th use (1-based) within one
hash invocation: `(INIT + j * INC) mod 2^64`. -/
def weylAt (inc w0 j : Nat) : Nat := (w0 + j * inc) % U64

/-- Closed form stated by the spec for one output slot `s` (0-based): the
top 32 bits of the 64-bit sum of one fresh accumulator value, the products
of fresh accumulator values with the inputs, and one final fresh accumulator
value, where accumulator uses are numbered consecutively across the whole
invocation (`n + 2` uses per slot, never reset between slots). -/
def hashSlotSpec (inc w0 : Nat) (us : List Nat) (s : Nat) : Nat :=
  let n := us.length
  let base := s * (n + 2)
  ((weylAt inc w0 (base + 1) +
      (∑ i ∈ Finset.range n, weylAt inc w0 (base + 2 + i) * (us.getD i 0 % U32)) +
      weylAt inc w0 (base + n + 2)) % U64) / U32

/-- Closed form for the whole hash output. -/
def hashSpec (inc w0 : Nat) (us : List Nat) (l : Nat) : List Nat :=
  (List.range l).map (hashSlotSpec inc w0 us)

/-! ### Hash lemmas -/

lemma weylNext_weylAt (inc w0 j : Nat) :
    weylNext inc (weylAt inc w0 j) = weylAt inc w0 (j + 1) := by
  show ((w0 + j * inc) % U64 + inc) % U64 = (w0 + (j + 1) * inc) % U64
  rw [Nat.mod_add_mod]
  congr 1
  ring

lemma hash_fold_spec (inc w0 : Nat) (us : List Nat) :
    ∀ (b a : Nat), a < U64 →
      us.foldl (fun (q : Nat × Nat) u =>
        let w2 := weylNext inc q.2
        ((q.1 + w2 * (u % U32)) % U64, w2)) (a, weylAt inc w0 b) =
      ((a + ∑ i ∈ Finset.range us.length,
          weylAt inc w0 (b + 1 + i) * (us.getD i 0 % U32)) % U64,
        weylAt inc w0 (b + us.length)) := by
  induction us with
  | nil =>
    intro b a ha
    simp [Nat.mod_eq_of_lt ha]
  | cons u tl ih =>
    intro b a ha
    simp only [List.foldl_cons, weylNext_weylAt]
    rw [ih (b + 1) ((a + weylAt inc w0 (b + 1) * (u % U32)) % U64)
        (Nat.mod_lt _ (by decide))]
    simp only [Prod.mk.injEq]
    refine ⟨?_, ?_⟩
    · rw [Nat.mod_add_mod, List.length_cons, Finset.sum_range_succ']
      simp only [List.getD_cons_succ, List.getD_cons_zero, Nat.add_zero]
      have hsum : (∑ i ∈ Finset.range tl.length,
            weylAt inc w0 (b + 1 + (i + 1)) * (tl.getD i 0 % U32)) =
          ∑ i ∈ Finset.range tl.length,
            weylAt inc w0 (b + 1 + 1 + i) * (tl.getD i 0 % U32) :=
        Finset.sum_congr rfl (fun i _ => by
          rw [show b + 1 + (i + 1) = b + 1 + 1 + i by omega])
      rw [hsum]
      congr 1
      ring
    · rw [List.length_cons, show b + (tl.length + 1) = b + 1 + tl.length by omega]

lemma hashSlot_spec (inc w0 : Nat) (us : List Nat) (b : Nat) :
    hashSlot inc us (weylAt inc w0 b) =
      (((weylAt inc w0 (b + 1) +
          (∑ i ∈ Finset.range us.length,
            weylAt inc w0 (b + 2 + i) * (us.getD i 0 % U32)) +
          weylAt inc w0 (b + us.length + 2)) % U64),
        weylAt inc w0 (b + us.length + 2)) := by
  simp only [hashSlot, weylNext_weylAt]
  rw [hash_fold_spec inc w0 us (b + 1) (weylAt inc w0 (b + 1))
      (Nat.mod_lt _ (by decide))]
  simp only [weylNext_weylAt]
  rw [show b + 1 + us.length + 1 = b + us.length + 2 by omega]
  rw [show b + 1 + 1 = b + 2 by omega]
  simp only [Prod.mk.injEq]
  refine ⟨?_, trivial⟩
  rw [Nat.mul_one, Nat.mod_add_mod]

lemma hashSlotSpec_def (inc w0 : Nat) (us : List Nat) (s : Nat) :
    hashSlotSpec inc w0 us s =
      ((weylAt inc w0 (s * (us.length + 2) + 1) +
        (∑ i ∈ Finset.range us.length,
          weylAt inc w0 (s * (us.length + 2) + 2 + i) * (us.getD i 0 % U32)) +
        weylAt inc w0 (s * (us.length + 2) + us.length + 2)) % U64) / U32 := rfl

lemma hashRun_spec (inc w0 : Nat) (us : List Nat) :
    ∀ (l s : Nat),
      hashRun inc us (weylAt inc w0 (s * (us.length + 2))) l =
        ((List.range l).map (fun j => hashSlotSpec inc w0 us (s + j)),
          weylAt inc w0 ((s + l) * (us.length + 2))) := by
  intro l
  induction l with
  | zero =>
    intro s
    simp [hashRun]
  | succ k ih =>
    intro s
    simp only [hashRun]
    simp only [hashSlot_spec inc w0 us]
    rw [← hashSlotSpec_def inc w0 us s]
    rw [show s * (us.length + 2) + us.length + 2 = (s + 1) * (us.length + 2) by ring]
    simp only [ih]
    simp only [Prod.mk.injEq]
    refine ⟨?_, ?_⟩
    · rw [List.range_succ_eq_map, List.map_cons, List.map_map]
      have hf : ((fun j => hashSlotSpec inc w0 us (s + j)) ∘ Nat.succ) =
          fun j => hashSlotSpec inc w0 us (s + 1 + j) :=
        funext fun j => by
          simp only [Function.comp_apply]
          rw [show s + (j + 1) = s + 1 + j by omega]
      rw [hf]
      simp
    · rw [show (s + (k + 1)) * (us.length + 2) = (s + 1 + k) * (us.length + 2) by ring]

/-- Claim C5: the multilinear hash equals, slot by slot, the top 32 bits of
the 64-bit sum of fresh Weyl-sequence accumulator values (one to start, one
per input element as a multiplier, one final `* 1`), with accumulator uses
numbered consecutively across output slots (never reset within one hash
invocation). -/
theorem hash_impl_eq_spec (inc w0 : Nat) (us : List Nat) (l : Nat) :
    hash_impl inc w0 us l = hashSpec inc w0 us l := by
  simp only [hash_impl]
  have h0 : w0 % U64 = weylAt inc w0 (0 * (us.length + 2)) := by
    simp [weylAt]
  rw [h0, hashRun_spec inc w0 us l 0]
  have hf : (fun j => hashSlotSpec inc w0 us (0 + j)) = hashSlotSpec inc w0 us :=
    funext fun j => by rw [Nat.zero_add]
  simp only [hashSpec, hf]

/-! ## Alias table -/

/-- Embeds `detail::random_u32_pair`: `{u, u >> 32}`, i.e. the low and high
32-bit halves of a 64-bit value (`first` is the low half). -/
def random_u32_pair (u : Nat) : Nat × Nat := (u % U32, (u / U32) % U32)

/-- Alias table data: the shift count `shr_`, the alias array `a_` and the
threshold array `p_`. -/
structure AliasTable where
  shr_ : Nat
  a_ : List Nat
  p_ : List Nat
deriving Repr, DecidableEq

/-- Embeds `AliasTable::Get`: split `u >> shr_` into 32-bit halves `yx`,
compare the low half against `p_[yx.second]` and return `yx.second` or
`a_[yx.second]`. -/
def AliasTable.Get (t : AliasTable) (u : Nat) : Nat :=
  let yx := random_u32_pair ((u % U64) >>> t.shr_)
  if yx.1 < t.p_.getD yx.2 0 then yx.2 else t.a_.getD yx.2 0

/-- Embeds the loop of `AliasTable::RoundUp`: `y = 2; k = 1;
while (y < x) { y *= 2; ++k; }`.  The loop variable `y` is always positive
(it starts at 2 and doubles), which the embedding records as a hypothesis to
justify termination. -/
def roundUpGo (x y k : Nat) (hy : 0 < y) : Nat × Nat :=
  if h : y < x then roundUpGo x (y * 2) (k + 1) (by omega) else (y, k)
termination_by x - y
decreasing_by omega

/-- Embeds `AliasTable::RoundUp`, returning `(y, k)` with `y = 2^k` the
first power of two (at least 2) that is `≥ x`. -/
def RoundUp (x : Nat) : Nat × Nat := roundUpGo x 2 1 (by omega)

/-- Embeds the size and shift bookkeeping of `AliasTable::CreateInplace` for
an input weight vector of length `n`: the vector is padded to
`sz = RoundUp(n).first` entries, `a_` and `p_` are resized to `sz` entries,
and `shr_ = 64 - RoundUp(n).second`.  The subsequent Vose filling loop
operates on IEEE doubles and only assigns `a_[i]`/`p_[i]` at indices
`i < sz`, so it changes neither the lengths of the two arrays nor `shr_`;
the zero-filled arrays produced by `resize` stand in for its result, whose
exact values no claim below depends on. -/
def AliasTable.CreateInplaceShape (n : Nat) : AliasTable :=
  let ru := RoundUp n
  { shr_ := 64 - ru.2, a_ := List.replicate ru.1 0, p_ := List.replicate ru.1 0 }

/-! ### Alias table lemmas -/

lemma roundUpGo_spec (x : Nat) :
    ∀ (m y k : Nat) (hy : 0 < y), x - y ≤ m → y = 2 ^ k →
      (roundUpGo x y k hy).1 = 2 ^ (roundUpGo x y k hy).2 ∧
        x ≤ (roundUpGo x y k hy).1 ∧ y ≤ (roundUpGo x y k hy).1 := by
  intro m
  induction m with
  | zero =>
    intro y k hy hle hpow
    rw [roundUpGo, dif_neg (by omega)]
    exact ⟨hpow, by omega, Nat.le_refl y⟩
  | succ m ih =>
    intro y k hy hle hpow
    rw [roundUpGo]
    by_cases h : y < x
    · rw [dif_pos h]
      have hle2 : x - y * 2 ≤ m := by omega
      have hpow2 : y * 2 = 2 ^ (k + 1) := by rw [hpow, pow_succ]
      have hres := ih (y * 2) (k + 1) (by omega) hle2 hpow2
      exact ⟨hres.1, hres.2.1, by omega⟩
    · rw [dif_neg h]
      exact ⟨hpow, by omega, Nat.le_refl y⟩

lemma RoundUp_spec (x : Nat) :
    (RoundUp x).1 = 2 ^ (RoundUp x).2 ∧ x ≤ (RoundUp x).1 ∧
      2 ≤ (RoundUp x).1 :=
  roundUpGo_spec x x 2 1 (by omega) (by omega) (by norm_num)

/-- Claim C6: for every weight vector length `n` in `[1, 2^32]`, the table
is padded to a power-of-two size at least `n` and both internal arrays get
exactly that size; for `n = 5` the size is exactly 8. -/
theorem aliasTable_padding (n : Nat) (_h1 : 1 ≤ n) (_h2 : n ≤ 2 ^ 32) :
    (∃ k : Nat,
      (AliasTable.CreateInplaceShape n).a_.length = 2 ^ k ∧
      (AliasTable.CreateInplaceShape n).p_.length = 2 ^ k ∧
      n ≤ 2 ^ k) ∧
    (AliasTable.CreateInplaceShape 5).a_.length = 8 ∧
    (AliasTable.CreateInplaceShape 5).p_.length = 8 := by
  obtain ⟨hpow, hge, h2le⟩ := RoundUp_spec n
  have hlen : ∀ x : Nat, (AliasTable.CreateInplaceShape x).a_.length = (RoundUp x).1 ∧
      (AliasTable.CreateInplaceShape x).p_.length = (RoundUp x).1 := by
    intro x
    simp [AliasTable.CreateInplaceShape]
  have h5 : RoundUp 5 = (8, 3) := by
    rw [RoundUp]
    rw [roundUpGo, dif_pos (by omega)]
    rw [roundUpGo, dif_pos (by omega)]
    rw [roundUpGo, dif_neg (by omega)]
  refine ⟨⟨(RoundUp n).2, ?_, ?_, ?_⟩, ?_, ?_⟩
  · rw [(hlen n).1, hpow]
  · rw [(hlen n).2, hpow]
  · rw [← hpow]; exact hge
  · rw [(hlen 5).1, h5]
  · rw [(hlen 5).2, h5]

/-- Witness for C6 at a weight vector of length 5. -/
theorem aliasTable_padding_witness :
    (1 ≤ 5 ∧ 5 ≤ 2 ^ 32) ∧
    ((∃ k : Nat,
      (AliasTable.CreateInplaceShape 5).a_.length = 2 ^ k ∧
      (AliasTable.CreateInplaceShape 5).p_.length = 2 ^ k ∧
      5 ≤ 2 ^ k) ∧
    (AliasTable.CreateInplaceShape 5).a_.length = 8 ∧
    (AliasTable.CreateInplaceShape 5).p_.length = 8) :=
  ⟨⟨by omega, by norm_num⟩, aliasTable_padding 5 (by omega) (by norm_num)⟩

/-- Claim C1 evaluation, refuting the stated draw split: for a table built
from a weight vector of length 4 (padded size 4, so the claim expects slot
indices covering `[0, 4)` taken from the top two bits of `u`), the slot
index `yx.second` computed by `Get` is 0 for every 64-bit input, because
`shr_ = 64 - 2 = 62` leaves only two bits before the high-half extraction;
consequently `Get` can only ever return `0` or `a_[0]`, whatever the table
contents are. -/
theorem aliasTable_get_slot_stuck :
    (∀ u : Nat,
      (random_u32_pair ((u % U64) >>> (AliasTable.CreateInplaceShape 4).shr_)).2 = 0) ∧
    (∀ (a p : List Nat) (u : Nat),
      AliasTable.Get ⟨(AliasTable.CreateInplaceShape 4).shr_, a, p⟩ u = 0 ∨
      AliasTable.Get ⟨(AliasTable.CreateInplaceShape 4).shr_, a, p⟩ u = a.getD 0 0) := by
  have h4 : RoundUp 4 = (4, 2) := by
    rw [RoundUp]
    rw [roundUpGo, dif_pos (by omega)]
    rw [roundUpGo, dif_neg (by omega)]
  have hshr : (AliasTable.CreateInplaceShape 4).shr_ = 62 := by
    simp [AliasTable.CreateInplaceShape, h4]
  have hslot : ∀ u : Nat,
      (random_u32_pair ((u % U64) >>> (AliasTable.CreateInplaceShape 4).shr_)).2 = 0 := by
    intro u
    rw [hshr]
    have hv : (u % U64) >>> 62 < 4 := by
      rw [Nat.shiftRight_eq_div_pow]
      have hu : u % U64 < U64 := Nat.mod_lt _ (by decide)
      rw [Nat.div_lt_iff_lt_mul (by norm_num : (0:Nat) < 2 ^ 62)]
      calc u % U64 < U64 := hu
        _ ≤ 4 * 2 ^ 62 := by norm_num [U64]
    show ((u % U64) >>> 62 / U32) % U32 = 0
    rw [Nat.div_eq_of_lt (by calc (u % U64) >>> 62 < 4 := hv
          _ ≤ U32 := by norm_num [U32])]
    rfl
  refine ⟨hslot, ?_⟩
  intro a p u
  have h := hslot u
  simp only [AliasTable.Get, h]
  by_cases hc : (random_u32_pair ((u % U64) >>> (AliasTable.CreateInplaceShape 4).shr_)).1 <
      p.getD 0 0
  · left
    rw [if_pos hc]
  · right
    rw [if_neg hc]

end Minion
